import Mathlib

/-!
# Verification of the Redundancy-MMI estimator

A shallow embedding of `src/hoi/metrics/red_mmi.py` (`RedundancyMMI.fit` and the
module-level helper `_mutual_information`), together with proofs of the testable
properties stated for it.

Modelling conventions:

* The prepared dataset (the value of `prepare_for_entropy(self._data, ...)`) is laid
  out channels × features × samples, the layout in which `data[:, 0:-1, :]` slices
  away the last feature column and `jax.vmap(entropy)` maps the per-channel entropy
  function over the leading axis.
* The entropy backend is an opaque parameter `e : Entropy` (the backends themselves
  are external collaborators).
* `float32` values are idealised as rationals: the claims under verification concern
  table shapes, enumeration order and the minimum rule, all of which are exact.
* Pieces of the repository that are imported by `red_mmi.py` but are not under
  `src/` (`HOIEstimator._check_minmax`, `hoi.core.combinatory.combinations`) are
  modelled from the spec; their doc comments say so explicitly.
-/

namespace HOI

/-- One channel of prepared data: one list of samples per feature
(layout features × samples). -/
abbrev ChannelData := List (List ℚ)

/-- Prepared dataset, layout channels × features × samples. -/
abbrev Data := List ChannelData

/-- An entropy backend: maps a batch (selected features × samples) to one entropy
value.  `jax.vmap` lifts it over the channel axis; the concrete backends
(`gcmi`, `binning`, `knn`) are external collaborators, so the backend is a parameter. -/
abbrev Entropy := ChannelData → ℚ

/-- `self.n_features`: the number of feature columns of the prepared dataset
(target column included), read off the leading channel. -/
def n_features (d : Data) : ℕ := (d.headD []).length

/-- `self.n_variables`: the number of channels of the prepared dataset. -/
def n_variables (d : Data) : ℕ := d.length

/-- `x[:, comb, :]` for one channel: the rows of `ch` listed in `comb`. -/
def select (ch : ChannelData) (comb : List ℕ) : ChannelData :=
  comb.map (fun i => ch.getD i [])

/-- Embeds the module-level `_mutual_information(inputs, comb, entropy)`:
select the combination from `x`, compute the three entropies per channel
(`entropy` is vmapped over the channel axis), and return
`mi = h_x + h_y - h_xy` as one value per channel. -/
def mutual_information (e : Entropy) (x y : Data) (comb : List ℕ) : List ℚ :=
  let xc := x.map (fun ch => select ch comb)
  let h_x := xc.map e
  let h_y := y.map e
  let h_xy := (List.zipWith (fun a b => a ++ b) xc y).map e
  List.zipWith (fun a b => a - b) (List.zipWith (fun a b => a + b) h_x h_y) h_xy

/-- `x = data[:, 0:-1, :]`: all feature columns but the last, per channel. -/
def xPart (d : Data) : Data := d.map List.dropLast

/-- `y = data[:, [-1], :]`: the last feature column alone, per channel. -/
def yPart (d : Data) : Data := d.map (fun ch => ch.drop (ch.length - 1))

/-- Embeds `jax.lax.scan(mutual_information, (x, y), jnp.arange(x.shape[1]).reshape(-1, 1))`:
the carry `(x, y)` is returned unchanged by `_mutual_information`, so the stacked scan
output is the map of `_mutual_information` over the single-index combinations
`[0], …, [x.shape[1] - 1]` — one sequential pass, each candidate feature visited once.
This is the Single-feature MI table, shape (`n_features - 1`) × channels. -/
def miScan (e : Entropy) (d : Data) : List (List ℚ) :=
  (List.range (n_features (xPart d))).map
    (fun i => mutual_information e (xPart d) (yPart d) [i])

/-- Modelled from the spec: `hoi.core.combinatory.combinations` is imported by
`red_mmi.py` but is not under `src/`.  Per the spec (§4.1) it returns every strictly
increasing `k`-tuple over the universe in standard lexicographic order.
`combsAux l k` enumerates the `k`-element sublists of `l` in that order. -/
def combsAux : List ℕ → ℕ → List (List ℕ)
  | _, 0 => [[]]
  | [], _ + 1 => []
  | a :: l, k + 1 => (combsAux l k).map (fun c => a :: c) ++ combsAux l (k + 1)

/-- Modelled from the spec: `combinations(n, msize, as_iterator=False, as_jax=True)`
returns the C(n, msize) strictly increasing tuples over `{0, …, n-1}` in
lexicographic order, as one bulk integer array. -/
def combinations (n k : ℕ) : List (List ℕ) := combsAux (List.range n) k

/-- Columnwise minimum of a stack of rows: embeds `.min(1)` applied to
`i_xiy[_h_idx, :]`, one multiplet at a time (axis 1 indexes the multiplet's
members, the remaining axis the channels). -/
def colMin : List (List ℚ) → List ℚ
  | [] => []
  | [r] => r
  | r :: rs => List.zipWith min r (colMin rs)

/-- `arr.at[slice(off, off + vals.length)].set(vals)` on the leading axis. -/
def setSlice {α : Type} (l : List α) (off : ℕ) (vals : List α) : List α :=
  l.take off ++ vals ++ l.drop (off + vals.length)

/-- The error taxonomy of the spec (§7); `UnknownBackendError` belongs to the
external backend factory and is out of scope here. -/
inductive FitError where
  | invalidSize
  | resourceExhausted
  | assemblyInvariant
  deriving DecidableEq

/-- Modelled from the spec: `HOIEstimator._check_minmax` lives in
`hoi/metrics/base_hoi.py`, which is not under `src/`.  Per the spec (§6),
`maxsize` defaults to `n_features - 1` when unset, and calling with
`minsize > maxsize` or `maxsize > n_features - 1` fails with an
`InvalidSizeError` before any computation begins. -/
def check_minmax (nf minsize : ℕ) (maxsize : Option ℕ) : Except FitError (ℕ × ℕ) :=
  let m := maxsize.getD (nf - 1)
  if minsize > m ∨ m > nf - 1 then .error .invalidSize else .ok (minsize, m)

/-- The redundancy score of one multiplet: the columnwise (per-channel) minimum of
the Single-feature MI rows selected by the multiplet's members
(`i_xiy[_h_idx, :].min(1)`, one row of the batch). -/
def hoiOf (i_xiy : List (List ℚ)) (comb : List ℕ) : List ℚ :=
  colMin (comb.map (fun i => i_xiy.getD i []))

/-- One row of the Multiplet Index Table: the member indices, left-justified,
padded to width `maxsize` with the sentinel `-1`.  This is the value of a row of
`h_idx` (initialised by `jnp.full((n_mults, maxsize), -1)`) after
`h_idx.at[sl, 0:n_feat].set(_h_idx)` touched it — each row of the table is written
by exactly one order's slice (the slices tile the table, see
`assemble_components`), so the row being set still holds its initial all-`(-1)`
value. -/
def padRow (maxsize : ℕ) (comb : List ℕ) : List ℤ :=
  comb.map Int.ofNat ++ List.replicate (maxsize - comb.length) (-1 : ℤ)

/-- The iteration space of the `for msize in pbar` loop:
`range(minsize, maxsize + 1)`. -/
def orders (minsize maxsize : ℕ) : List ℕ := List.range' minsize (maxsize + 1 - minsize)

/-- The assembler state: the `hoi`, `h_idx` and `order` tables plus the running
write offset. -/
abbrev AState := List (List ℚ) × List (List ℤ) × List ℕ × ℕ

/-- One iteration of the `for msize in pbar` loop of `RedundancyMMI.fit`:
enumerate the combinations of the current order, write the index rows, the order
values and the per-multiplet scores into the slice
`slice(offset, offset + n_combs)`, and advance the offset. -/
def fitStep (i_xiy : List (List ℚ)) (nc maxsize : ℕ) (st : AState) (msize : ℕ) :
    AState :=
  let comb_list := combinations nc msize
  let n_combs := comb_list.length
  ( setSlice st.1 st.2.2.2 (comb_list.map (hoiOf i_xiy)),
    setSlice st.2.1 st.2.2.2 (comb_list.map (padRow maxsize)),
    setSlice st.2.2.1 st.2.2.2 (List.replicate n_combs msize),
    st.2.2.2 + n_combs )

/-- The assembly loop of `RedundancyMMI.fit`: preallocate
`hoi = jnp.zeros((n_mults, n_variables))`, `h_idx = jnp.full((n_mults, maxsize), -1)`
and `order = jnp.zeros((n_mults,))`, then fill them per order starting from
`offset = 0`. -/
def assemble (i_xiy : List (List ℚ)) (nc nv minsize maxsize : ℕ) : AState :=
  (orders minsize maxsize).foldl (fitStep i_xiy nc maxsize)
    ( List.replicate ((orders minsize maxsize).map (fun c => Nat.choose nc c)).sum
        (List.replicate nv (0 : ℚ)),
      List.replicate ((orders minsize maxsize).map (fun c => Nat.choose nc c)).sum
        (List.replicate maxsize (-1 : ℤ)),
      List.replicate ((orders minsize maxsize).map (fun c => Nat.choose nc c)).sum 0,
      0 )

/-- The result of `fit`: the returned HOI Result Table plus the side tables
stored on the estimator (`self._multiplets`, `self._order`, `self._keep`). -/
structure FitResult where
  hoi : List (List ℚ)
  multiplets : List (List ℤ)
  order : List ℕ
  keep : List Bool
  deriving DecidableEq

/-- Embeds `RedundancyMMI.fit(minsize, maxsize, method, **kwargs)`.  `data` is the
prepared dataset (the output of the external `prepare_for_entropy`) and `e` the
entropy backend returned by the external `get_entropy` factory.  The sizes are
checked first (`self._check_minmax(max(minsize, 2), maxsize)`), then the
Single-feature MI table is computed in one scan, and finally the output tables are
assembled order by order.  `self._keep = np.ones_like(self._order, dtype=bool)`. -/
def fit (e : Entropy) (data : Data) (minsize : ℕ) (maxsize : Option ℕ) :
    Except FitError FitResult :=
  match check_minmax (n_features data) (max minsize 2) maxsize with
  | .error err => .error err
  | .ok (minsize, maxsize) =>
    let i_xiy := miScan e data
    let r := assemble i_xiy (n_features data - 1) (n_variables data) minsize maxsize
    .ok { hoi := r.1, multiplets := r.2.1, order := r.2.2.1,
          keep := List.replicate r.2.2.1.length true }

/-- The flattened form of the assembled HOI Result Table: the per-order blocks in
construction order. -/
def flatHoi (i_xiy : List (List ℚ)) (nc minsize maxsize : ℕ) : List (List ℚ) :=
  (orders minsize maxsize).flatMap (fun m => (combinations nc m).map (hoiOf i_xiy))

/-- The flattened form of the assembled Multiplet Index Table. -/
def flatIdx (nc minsize maxsize : ℕ) : List (List ℤ) :=
  (orders minsize maxsize).flatMap (fun m => (combinations nc m).map (padRow maxsize))

/-- The flattened form of the assembled Order Table. -/
def flatOrd (nc minsize maxsize : ℕ) : List ℕ :=
  (orders minsize maxsize).flatMap (fun m => (combinations nc m).map (fun _ => m))

/-- The value `fit` returns on a size-checked call, in flattened form
(see `fit_ok`). -/
def flatResult (e : Entropy) (data : Data) (ms mx : ℕ) : FitResult :=
  { hoi := flatHoi (miScan e data) (n_features data - 1) ms mx,
    multiplets := flatIdx (n_features data - 1) ms mx,
    order := flatOrd (n_features data - 1) ms mx,
    keep := List.replicate (flatOrd (n_features data - 1) ms mx).length true }

/-- Reordering the channel axis of the prepared dataset by the index list `σ`. -/
def chanPerm (σ : List ℕ) (d : Data) : Data := σ.map (fun c => d.getD c [])

/-- Reordering the entries of a per-channel row of results by the index list `σ`. -/
def rowPerm (σ : List ℕ) (row : List ℚ) : List ℚ := σ.map (fun c => row.getD c 0)

/-! ## The enumerator: counting and well-formedness -/

theorem length_combsAux (l : List ℕ) (k : ℕ) :
    (combsAux l k).length = Nat.choose l.length k := by
  induction l generalizing k with
  | nil => cases k <;> simp [combsAux]
  | cons a l ih =>
    cases k with
    | zero => simp [combsAux]
    | succ k => simp [combsAux, ih, Nat.choose_succ_succ]

theorem length_combinations (n k : ℕ) :
    (combinations n k).length = Nat.choose n k := by
  simp [combinations, length_combsAux]

theorem sublist_of_mem_combsAux {l : List ℕ} {k : ℕ} {c : List ℕ}
    (h : c ∈ combsAux l k) : c.Sublist l ∧ c.length = k := by
  induction l generalizing k c with
  | nil =>
    cases k with
    | zero =>
      simp only [combsAux, List.mem_singleton] at h
      simp [h]
    | succ k => simp [combsAux] at h
  | cons a l ih =>
    cases k with
    | zero =>
      simp only [combsAux, List.mem_singleton] at h
      simp [h]
    | succ k =>
      simp only [combsAux, List.mem_append, List.mem_map] at h
      rcases h with ⟨c', hc', rfl⟩ | h
      · obtain ⟨hs, hl⟩ := ih hc'
        exact ⟨hs.cons₂ a, by simp [hl]⟩
      · obtain ⟨hs, hl⟩ := ih h
        exact ⟨hs.cons a, hl⟩

theorem mem_combinations {n k : ℕ} {c : List ℕ} (h : c ∈ combinations n k) :
    c.length = k ∧ c.Nodup ∧ (∀ x ∈ c, x < n) := by
  obtain ⟨hs, hl⟩ := sublist_of_mem_combsAux h
  exact ⟨hl, (List.nodup_range n).sublist hs,
    fun x hx => List.mem_range.mp (hs.subset hx)⟩

/-! ## The assembler: slice filling tiles the preallocated tables -/

theorem length_setSlice {α : Type} (l : List α) (off : ℕ) (vals : List α)
    (h : off + vals.length ≤ l.length) :
    (setSlice l off vals).length = l.length := by
  simp only [setSlice, List.length_append, List.length_take, List.length_drop]
  omega

theorem take_setSlice {α : Type} (l : List α) (off : ℕ) (vals : List α)
    (h : off ≤ l.length) :
    (setSlice l off vals).take (off + vals.length) = l.take off ++ vals := by
  have h0 : off ⊓ l.length = off := by omega
  have h1 : (off + vals.length) ⊓ off = off := by omega
  have h2 : off + vals.length - off = vals.length := by omega
  have h3 : vals.length - vals.length = 0 := by omega
  simp only [setSlice, List.take_append_eq_append_take, List.take_take, List.length_take,
    List.length_append, h0, h1, h2, h3, Nat.sub_self, List.take_length, List.take_zero,
    List.append_nil]

theorem foldl_fitStep (i_xiy : List (List ℚ)) (nc mx : ℕ) (os : List ℕ)
    (hoi : List (List ℚ)) (h_idx : List (List ℤ)) (ord : List ℕ) (off : ℕ)
    (h1 : hoi.length = off + (os.map (fun c => Nat.choose nc c)).sum)
    (h2 : h_idx.length = off + (os.map (fun c => Nat.choose nc c)).sum)
    (h3 : ord.length = off + (os.map (fun c => Nat.choose nc c)).sum) :
    os.foldl (fitStep i_xiy nc mx) (hoi, h_idx, ord, off) =
      ( hoi.take off ++ os.flatMap (fun m => (combinations nc m).map (hoiOf i_xiy)),
        h_idx.take off ++ os.flatMap (fun m => (combinations nc m).map (padRow mx)),
        ord.take off ++ os.flatMap (fun m => (combinations nc m).map (fun _ => m)),
        off + (os.map (fun c => Nat.choose nc c)).sum ) := by
  induction os generalizing hoi h_idx ord off with
  | nil =>
    simp only [List.map_nil, List.sum_nil, Nat.add_zero] at h1 h2 h3
    subst h1
    have e1 : hoi.take hoi.length = hoi := List.take_length hoi
    have e2 : h_idx.take hoi.length = h_idx := by rw [← h2, List.take_length]
    have e3 : ord.take hoi.length = ord := by rw [← h3, List.take_length]
    simp [e1, e2, e3]
  | cons m os ih =>
    have hsum : hoi.length = off + (Nat.choose nc m +
        (os.map (fun c => Nat.choose nc c)).sum) := by simpa using h1
    have hsum2 : h_idx.length = off + (Nat.choose nc m +
        (os.map (fun c => Nat.choose nc c)).sum) := by simpa using h2
    have hsum3 : ord.length = off + (Nat.choose nc m +
        (os.map (fun c => Nat.choose nc c)).sum) := by simpa using h3
    have hnc : (combinations nc m).length = Nat.choose nc m := length_combinations nc m
    rw [List.foldl_cons]
    have hstep : fitStep i_xiy nc mx (hoi, h_idx, ord, off) m =
        ( setSlice hoi off ((combinations nc m).map (hoiOf i_xiy)),
          setSlice h_idx off ((combinations nc m).map (padRow mx)),
          setSlice ord off (List.replicate (combinations nc m).length m),
          off + (combinations nc m).length ) := rfl
    rw [hstep]
    have hb1 : ((combinations nc m).map (hoiOf i_xiy)).length = Nat.choose nc m := by
      simp [hnc]
    have hb2 : ((combinations nc m).map (padRow mx)).length = Nat.choose nc m := by
      simp [hnc]
    have hb3 : (List.replicate (combinations nc m).length m).length = Nat.choose nc m := by
      simp [hnc]
    have hle1 : off + ((combinations nc m).map (hoiOf i_xiy)).length ≤ hoi.length := by
      rw [hb1]; omega
    have hle2 : off + ((combinations nc m).map (padRow mx)).length ≤ h_idx.length := by
      rw [hb2]; omega
    have hle3 : off + (List.replicate (combinations nc m).length m).length ≤ ord.length := by
      rw [hb3]; omega
    rw [ih _ _ _ _
      (by rw [length_setSlice _ _ _ hle1, hnc]; omega)
      (by rw [length_setSlice _ _ _ hle2, hnc]; omega)
      (by rw [length_setSlice _ _ _ hle3, hnc]; omega)]
    rw [hnc]
    have ht1 := take_setSlice hoi off ((combinations nc m).map (hoiOf i_xiy))
      (by omega)
    have ht2 := take_setSlice h_idx off ((combinations nc m).map (padRow mx))
      (by omega)
    have ht3 := take_setSlice ord off (List.replicate (combinations nc m).length m)
      (by omega)
    rw [hb1] at ht1; rw [hb2] at ht2; rw [hb3] at ht3
    rw [hnc] at ht3
    have hrep : List.replicate (Nat.choose nc m) m =
        (combinations nc m).map (fun _ => m) := by
      rw [← hnc]; simp
    rw [ht1, ht2, ht3, hrep]
    simp only [List.flatMap_cons, List.append_assoc, List.map_cons, List.sum_cons,
      Prod.mk.injEq, true_and]
    omega

theorem assemble_components (i_xiy : List (List ℚ)) (nc nv ms mx : ℕ) :
    assemble i_xiy nc nv ms mx =
      ( flatHoi i_xiy nc ms mx, flatIdx nc ms mx, flatOrd nc ms mx,
        ((orders ms mx).map (fun c => Nat.choose nc c)).sum ) := by
  unfold assemble
  rw [foldl_fitStep i_xiy nc mx (orders ms mx) _ _ _ 0 (by simp) (by simp) (by simp)]
  simp [flatHoi, flatIdx, flatOrd]

/-! ## The MI scan, channelwise -/

theorem mutual_information_eq_map (e : Entropy) (d : Data)
    (f g : ChannelData → ChannelData) (comb : List ℕ) :
    mutual_information e (d.map f) (d.map g) comb =
      d.map (fun ch => e (select (f ch) comb) + e (g ch) -
        e (select (f ch) comb ++ g ch)) := by
  unfold mutual_information
  simp only [List.map_map, List.zipWith_map, List.zipWith_same]
  rfl

theorem n_features_xPart (d : Data) : n_features (xPart d) = n_features d - 1 := by
  cases d <;> simp [n_features, xPart]

theorem miScan_length (e : Entropy) (d : Data) :
    (miScan e d).length = n_features d - 1 := by
  simp [miScan, n_features_xPart]

theorem miScan_row_length (e : Entropy) (d : Data) :
    ∀ row ∈ miScan e d, row.length = n_variables d := by
  intro row hrow
  simp only [miScan, List.mem_map, List.mem_range] at hrow
  obtain ⟨i, _, rfl⟩ := hrow
  unfold xPart yPart
  rw [mutual_information_eq_map]
  simp [n_variables]

theorem miScan_getD (e : Entropy) (d : Data) (i : ℕ) (hi : i < n_features d - 1) :
    (miScan e d).getD i [] =
      d.map (fun ch => e (select ch.dropLast [i]) + e (ch.drop (ch.length - 1)) -
        e (select ch.dropLast [i] ++ ch.drop (ch.length - 1))) := by
  have hlen : i < (miScan e d).length := by rw [miScan_length]; omega
  rw [List.getD_eq_getElem _ _ hlen]
  have hr : i < (List.range (n_features (xPart d))).length := by
    simp [n_features_xPart]; omega
  simp only [miScan, List.getElem_map, List.getElem_range]
  unfold xPart yPart
  rw [mutual_information_eq_map]

/-! ## The columnwise minimum -/

theorem colMin_length {rows : List (List ℚ)} {L : ℕ} (hne : rows ≠ [])
    (h : ∀ r ∈ rows, r.length = L) : (colMin rows).length = L := by
  induction rows with
  | nil => cases hne rfl
  | cons r rs ih =>
    cases rs with
    | nil => simpa using h r (by simp)
    | cons r2 rs2 =>
      have hstep : colMin (r :: r2 :: rs2) = List.zipWith min r (colMin (r2 :: rs2)) := rfl
      have hrest : ∀ x ∈ r2 :: rs2, x.length = L := fun x hx =>
        h x (List.mem_cons_of_mem _ hx)
      rw [hstep, List.length_zipWith, ih (by simp) hrest, h r (by simp)]
      omega

theorem getD_zipWith_min {a b : List ℚ} {c : ℕ} (ha : c < a.length) (hb : c < b.length) :
    (List.zipWith min a b).getD c 0 = min (a.getD c 0) (b.getD c 0) := by
  rw [List.getD_eq_getElem _ _ (by rw [List.length_zipWith]; omega),
      List.getD_eq_getElem _ _ ha, List.getD_eq_getElem _ _ hb, List.getElem_zipWith]

theorem colMin_getD_is_min {rows : List (List ℚ)} {L : ℕ} (hne : rows ≠ [])
    (h : ∀ r ∈ rows, r.length = L) (c : ℕ) (hc : c < L) :
    (colMin rows).getD c 0 ∈ rows.map (fun r => r.getD c 0) ∧
    ∀ w ∈ rows.map (fun r => r.getD c 0), (colMin rows).getD c 0 ≤ w := by
  induction rows with
  | nil => cases hne rfl
  | cons r rs ih =>
    cases rs with
    | nil => simp [colMin]
    | cons r2 rs2 =>
      have hstep : colMin (r :: r2 :: rs2) = List.zipWith min r (colMin (r2 :: rs2)) := rfl
      have hr : r.length = L := h r (by simp)
      have hrest : ∀ x ∈ r2 :: rs2, x.length = L := fun x hx =>
        h x (List.mem_cons_of_mem _ hx)
      have hclen : (colMin (r2 :: rs2)).length = L := colMin_length (by simp) hrest
      obtain ⟨ihmem, ihle⟩ := ih (by simp) hrest
      have hz : (colMin (r :: r2 :: rs2)).getD c 0 =
          min (r.getD c 0) ((colMin (r2 :: rs2)).getD c 0) := by
        rw [hstep, getD_zipWith_min (by omega) (by omega)]
      constructor
      · rcases min_choice (r.getD c 0) ((colMin (r2 :: rs2)).getD c 0) with hmin | hmin
        · rw [hz, hmin]; simp
        · rw [hz, hmin, List.map_cons]
          exact List.mem_cons_of_mem _ ihmem
      · intro w hw
        rw [List.map_cons] at hw
        rcases List.mem_cons.mp hw with rfl | hw
        · rw [hz]; exact min_le_left _ _
        · rw [hz]
          exact le_trans (min_le_right _ _) (ihle w hw)

theorem colMin_rowPerm {rows : List (List ℚ)} {L : ℕ} (σ : List ℕ) (hne : rows ≠ [])
    (h : ∀ r ∈ rows, r.length = L) (hσ : ∀ c ∈ σ, c < L) :
    colMin (rows.map (rowPerm σ)) = rowPerm σ (colMin rows) := by
  induction rows with
  | nil => cases hne rfl
  | cons r rs ih =>
    cases rs with
    | nil => simp [colMin]
    | cons r2 rs2 =>
      have hr : r.length = L := h r (by simp)
      have hrest : ∀ x ∈ r2 :: rs2, x.length = L := fun x hx =>
        h x (List.mem_cons_of_mem _ hx)
      have hclen : (colMin (r2 :: rs2)).length = L := colMin_length (by simp) hrest
      have hstep : colMin ((r :: r2 :: rs2).map (rowPerm σ)) =
          List.zipWith min (rowPerm σ r) (colMin ((r2 :: rs2).map (rowPerm σ))) := rfl
      have hstep2 : colMin (r :: r2 :: rs2) = List.zipWith min r (colMin (r2 :: rs2)) := rfl
      rw [hstep, ih (by simp) hrest, hstep2]
      unfold rowPerm
      rw [List.zipWith_map, List.zipWith_same]
      apply List.map_congr_left
      intro c hcmem
      have hc : c < L := hσ c hcmem
      rw [getD_zipWith_min (by omega) (by omega)]

/-! ## `fit` in flattened form -/

theorem check_minmax_error_of {nf ms : ℕ} {mo : Option ℕ}
    (h : ms > mo.getD (nf - 1) ∨ mo.getD (nf - 1) > nf - 1) :
    check_minmax nf ms mo = .error .invalidSize := by
  simp only [check_minmax, if_pos h]

theorem check_minmax_ok_of {nf ms : ℕ} {mo : Option ℕ}
    (h1 : ms ≤ mo.getD (nf - 1)) (h2 : mo.getD (nf - 1) ≤ nf - 1) :
    check_minmax nf ms mo = .ok (ms, mo.getD (nf - 1)) := by
  have : ¬(ms > mo.getD (nf - 1) ∨ mo.getD (nf - 1) > nf - 1) := by omega
  simp only [check_minmax, if_neg this]

/-! ## Row structure of the flattened tables -/

/-- All multiplets of a size-checked call, in construction order. -/
def allCombs (nc ms mx : ℕ) : List (List ℕ) :=
  (orders ms mx).flatMap (fun m => combinations nc m)

theorem flatHoi_eq_map (i_xiy : List (List ℚ)) (nc ms mx : ℕ) :
    flatHoi i_xiy nc ms mx = (allCombs nc ms mx).map (hoiOf i_xiy) := by
  unfold flatHoi allCombs
  rw [List.map_flatMap]

theorem flatIdx_eq_map (nc ms mx : ℕ) :
    flatIdx nc ms mx = (allCombs nc ms mx).map (padRow mx) := by
  unfold flatIdx allCombs
  rw [List.map_flatMap]

theorem flatOrd_eq_map (nc ms mx : ℕ) :
    flatOrd nc ms mx = (allCombs nc ms mx).map List.length := by
  unfold flatOrd allCombs
  rw [List.map_flatMap]
  apply List.flatMap_congr
  intro m _
  apply List.map_congr_left
  intro c hc
  exact ((mem_combinations hc).1).symm

theorem mem_orders {ms mx k : ℕ} : k ∈ orders ms mx ↔ ms ≤ k ∧ k ≤ mx := by
  rw [orders, List.mem_range'_1]
  omega

theorem orders_nodup (ms mx : ℕ) : (orders ms mx).Nodup := List.nodup_range' _ _

theorem orders_pairwise_lt (ms mx : ℕ) : (orders ms mx).Pairwise (fun a b => a < b) :=
  List.pairwise_lt_range' _ _

theorem mem_allCombs {nc ms mx : ℕ} {c : List ℕ} (h : c ∈ allCombs nc ms mx) :
    ms ≤ c.length ∧ c.length ≤ mx ∧ c.Nodup ∧ ∀ x ∈ c, x < nc := by
  obtain ⟨m, hm, hc⟩ := List.mem_flatMap.mp h
  obtain ⟨hlen, hnd, hbound⟩ := mem_combinations hc
  obtain ⟨h1, h2⟩ := mem_orders.mp hm
  exact ⟨by omega, by omega, hnd, hbound⟩

theorem count_flatMap_replicate (g : ℕ → ℕ) (os : List ℕ) (k : ℕ) (hnd : os.Nodup) :
    (os.flatMap (fun m => List.replicate (g m) m)).count k =
      if k ∈ os then g k else 0 := by
  induction os with
  | nil => simp
  | cons m os ih =>
    simp only [List.flatMap_cons, List.count_append]
    rw [ih (List.nodup_cons.mp hnd).2]
    by_cases hkm : k = m
    · subst hkm
      have hk : k ∉ os := (List.nodup_cons.mp hnd).1
      simp [hk]
    · simp [List.count_replicate, hkm, Ne.symm hkm, List.mem_cons]

theorem pairwise_le_flatMap_replicate (g : ℕ → ℕ) (os : List ℕ)
    (h : os.Pairwise (fun a b => a < b)) :
    (os.flatMap (fun m => List.replicate (g m) m)).Pairwise (fun a b => a ≤ b) := by
  induction os with
  | nil => simp
  | cons m os ih =>
    simp only [List.flatMap_cons]
    rw [List.pairwise_append]
    refine ⟨List.pairwise_replicate.mpr (Or.inr (le_refl m)),
      ih (List.pairwise_cons.mp h).2, ?_⟩
    intro a ha b hb
    rw [List.eq_of_mem_replicate ha]
    obtain ⟨m2, hm2, hb2⟩ := List.mem_flatMap.mp hb
    rw [List.eq_of_mem_replicate hb2]
    exact le_of_lt ((List.pairwise_cons.mp h).1 m2 hm2)

theorem flatOrd_eq_flatMap_replicate (nc ms mx : ℕ) :
    flatOrd nc ms mx =
      (orders ms mx).flatMap (fun m => List.replicate (Nat.choose nc m) m) := by
  unfold flatOrd
  apply List.flatMap_congr
  intro m _
  rw [List.map_const', length_combinations]

theorem count_flatOrd {nc ms mx k : ℕ} (h1 : ms ≤ k) (h2 : k ≤ mx) :
    (flatOrd nc ms mx).count k = Nat.choose nc k := by
  rw [flatOrd_eq_flatMap_replicate,
    count_flatMap_replicate _ _ _ (orders_nodup ms mx),
    if_pos (mem_orders.mpr ⟨h1, h2⟩)]

theorem flatOrd_pairwise_le (nc ms mx : ℕ) :
    (flatOrd nc ms mx).Pairwise (fun a b => a ≤ b) := by
  rw [flatOrd_eq_flatMap_replicate]
  exact pairwise_le_flatMap_replicate _ _ (orders_pairwise_lt ms mx)

theorem length_allCombs (nc ms mx : ℕ) :
    (allCombs nc ms mx).length =
      ((orders ms mx).map (fun c => Nat.choose nc c)).sum := by
  unfold allCombs
  rw [List.length_flatMap]
  congr 1
  apply List.map_congr_left
  intro m _
  exact length_combinations nc m

theorem sum_orders_eq_Icc (nc ms mx : ℕ) :
    ((orders ms mx).map (fun c => Nat.choose nc c)).sum =
      ∑ k ∈ Finset.Icc ms mx, Nat.choose nc k := by
  rw [Nat.Icc_eq_range', orders, Finset.sum_mk, Multiset.map_coe, Multiset.sum_coe]

theorem fit_ok {e : Entropy} {data : Data} {minsize : ℕ} {maxsize : Option ℕ}
    {r : FitResult} :
    fit e data minsize maxsize = .ok r ↔
      max minsize 2 ≤ maxsize.getD (n_features data - 1) ∧
      maxsize.getD (n_features data - 1) ≤ n_features data - 1 ∧
      r = flatResult e data (max minsize 2) (maxsize.getD (n_features data - 1)) := by
  by_cases h1 : max minsize 2 ≤ maxsize.getD (n_features data - 1)
  · by_cases h2 : maxsize.getD (n_features data - 1) ≤ n_features data - 1
    · unfold fit
      rw [check_minmax_ok_of h1 h2]
      simp only [assemble_components, flatResult, Except.ok.injEq]
      constructor
      · intro h
        exact ⟨h1, h2, h.symm⟩
      · intro ⟨_, _, h⟩
        exact h.symm
    · unfold fit
      rw [check_minmax_error_of (Or.inr (by omega))]
      simp [h2]
  · unfold fit
    rw [check_minmax_error_of (Or.inl (by omega))]
    simp [h1]

/-! ## Generic index-access helpers -/

theorem getD_map_eq {α β : Type} (f : α → β) (l : List α) (j : ℕ) (d : β) (d' : α)
    (hj : j < l.length) : (l.map f).getD j d = f (l.getD j d') := by
  rw [List.getD_eq_getElem _ _ (by simpa using hj), List.getD_eq_getElem _ _ hj,
    List.getElem_map]

theorem getD_mem {α : Type} (l : List α) (j : ℕ) (d : α) (hj : j < l.length) :
    l.getD j d ∈ l := by
  rw [List.getD_eq_getElem _ _ hj]
  exact List.getElem_mem hj

theorem flatResult_row (e : Entropy) (data : Data) (ms mx : ℕ) (j : ℕ)
    (hj : j < (allCombs (n_features data - 1) ms mx).length) :
    (flatResult e data ms mx).hoi.getD j [] =
        hoiOf (miScan e data) ((allCombs (n_features data - 1) ms mx).getD j []) ∧
    (flatResult e data ms mx).multiplets.getD j [] =
        padRow mx ((allCombs (n_features data - 1) ms mx).getD j []) ∧
    (flatResult e data ms mx).order.getD j 0 =
        ((allCombs (n_features data - 1) ms mx).getD j []).length := by
  simp only [flatResult]
  rw [flatHoi_eq_map, flatIdx_eq_map, flatOrd_eq_map]
  exact ⟨getD_map_eq _ _ _ _ [] hj, getD_map_eq _ _ _ _ [] hj, getD_map_eq _ _ _ _ [] hj⟩

/-! ## The claims -/

/-- C7: after the loop over all orders, the accumulated write offset equals the
total multiplet count Σ C(n-1, k) exactly, and all three assembled tables have
exactly that many rows.  The assembly invariant therefore holds on every run, so
the claim's failure branch (fail with `AssemblyInvariantError` on a mismatch) is
vacuously satisfied: no silently corrected or partially filled table can be
returned. -/
theorem assemble_offset_eq_total (i_xiy : List (List ℚ)) (nc nv ms mx : ℕ) :
    (assemble i_xiy nc nv ms mx).2.2.2 =
        ((orders ms mx).map (fun c => Nat.choose nc c)).sum ∧
    (assemble i_xiy nc nv ms mx).1.length =
        ((orders ms mx).map (fun c => Nat.choose nc c)).sum ∧
    (assemble i_xiy nc nv ms mx).2.1.length =
        ((orders ms mx).map (fun c => Nat.choose nc c)).sum ∧
    (assemble i_xiy nc nv ms mx).2.2.1.length =
        ((orders ms mx).map (fun c => Nat.choose nc c)).sum := by
  rw [assemble_components]
  refine ⟨rfl, ?_, ?_, ?_⟩
  · rw [flatHoi_eq_map, List.length_map, length_allCombs]
  · rw [flatIdx_eq_map, List.length_map, length_allCombs]
  · rw [flatOrd_eq_map, List.length_map, length_allCombs]

/-- C3: on a successful `fit`, the HOI Result Table, the Multiplet Index Table and
the Order Table all have Σ_{k=minsize..maxsize} C(n_features-1, k) rows (with the
effective `minsize = max(minsize, 2)` and `maxsize` defaulting to `n_features - 1`),
and each order value `k` in range occupies exactly C(n_features-1, k) rows of the
Order Table. -/
theorem fit_table_counts (e : Entropy) (data : Data) (minsize : ℕ) (maxsize : Option ℕ)
    (r : FitResult) (hfit : fit e data minsize maxsize = .ok r) :
    r.hoi.length =
      ∑ k ∈ Finset.Icc (max minsize 2) (maxsize.getD (n_features data - 1)),
        Nat.choose (n_features data - 1) k ∧
    r.multiplets.length =
      ∑ k ∈ Finset.Icc (max minsize 2) (maxsize.getD (n_features data - 1)),
        Nat.choose (n_features data - 1) k ∧
    r.order.length =
      ∑ k ∈ Finset.Icc (max minsize 2) (maxsize.getD (n_features data - 1)),
        Nat.choose (n_features data - 1) k ∧
    ∀ k, max minsize 2 ≤ k → k ≤ maxsize.getD (n_features data - 1) →
      r.order.count k = Nat.choose (n_features data - 1) k := by
  obtain ⟨hms, hmx, rfl⟩ := fit_ok.mp hfit
  simp only [flatResult]
  refine ⟨?_, ?_, ?_, ?_⟩
  · rw [flatHoi_eq_map, List.length_map, length_allCombs, sum_orders_eq_Icc]
  · rw [flatIdx_eq_map, List.length_map, length_allCombs, sum_orders_eq_Icc]
  · rw [flatOrd_eq_map, List.length_map, length_allCombs, sum_orders_eq_Icc]
  · intro k hk1 hk2
    exact count_flatOrd hk1 hk2

/-- C5: the Order Table returned by `fit` is monotonically non-decreasing: all
rows of one order precede all rows of any larger order. -/
theorem fit_order_monotone (e : Entropy) (data : Data) (minsize : ℕ)
    (maxsize : Option ℕ) (r : FitResult) (hfit : fit e data minsize maxsize = .ok r)
    (i j : ℕ) (hij : i < j) (hj : j < r.order.length) :
    r.order.getD i 0 ≤ r.order.getD j 0 := by
  obtain ⟨hms, hmx, rfl⟩ := fit_ok.mp hfit
  simp only [flatResult] at hj ⊢
  have hp := flatOrd_pairwise_le (n_features data - 1) (max minsize 2)
      (maxsize.getD (n_features data - 1))
  rw [List.pairwise_iff_getElem] at hp
  rw [List.getD_eq_getElem _ _ (by omega), List.getD_eq_getElem _ _ hj]
  exact hp i j (by omega) hj hij

/-- C6: `fit` clamps `minsize` to at least 2, defaults `maxsize` to
`n_features - 1` when unset, and fails with `InvalidSizeError` — producing no
output tables — whenever the effective `minsize` exceeds the effective `maxsize`
or the effective `maxsize` exceeds `n_features - 1`; in particular a dataset with
one candidate feature (`n_features = 2`) rejects `minsize = 2`. -/
theorem fit_invalid_size (e : Entropy) (data : Data) (minsize : ℕ)
    (maxsize : Option ℕ) :
    (max minsize 2 > maxsize.getD (n_features data - 1) ∨
        maxsize.getD (n_features data - 1) > n_features data - 1 →
      fit e data minsize maxsize = .error .invalidSize) ∧
    fit e data minsize none = fit e data (max minsize 2) (some (n_features data - 1)) ∧
    (n_features data = 2 → fit e data 2 none = .error .invalidSize) := by
  refine ⟨?_, ?_, ?_⟩
  · intro h
    unfold fit
    rw [check_minmax_error_of h]
  · unfold fit
    have hmm : max (max minsize 2) 2 = max minsize 2 := by omega
    rw [hmm]
    rfl
  · intro h2
    unfold fit
    rw [h2, check_minmax_error_of (Or.inl (by decide))]

/-- C2: the Single-feature MI table is one row per candidate feature — shape
(n_features - 1) × channels, one entry per channel per row — and entry (i, c) is
`H(feature_i) + H(target) - H(feature_i, target)` as computed by the entropy
backend on channel `c`; the table is the output of the single sequential scan
`miScan`, which visits each of the n-1 candidate features exactly once. -/
theorem miScan_spec (e : Entropy) (data : Data) :
    (miScan e data).length = n_features data - 1 ∧
    (∀ row ∈ miScan e data, row.length = n_variables data) ∧
    ∀ i, i < n_features data - 1 →
      (miScan e data).getD i [] =
        data.map (fun ch =>
          e (select ch.dropLast [i]) + e (ch.drop (ch.length - 1)) -
            e (select ch.dropLast [i] ++ ch.drop (ch.length - 1))) :=
  ⟨miScan_length e data, miScan_row_length e data, fun i hi => miScan_getD e data i hi⟩

/-- C10: the last feature column of the prepared dataset is the target, the
preceding columns are the candidates in their original order, and index `i`
means the i-th non-target column: row `i` of the Single-feature MI table is
computed from column `i` and from the last column (index `n_features - 1`) of
every channel. -/
theorem fit_target_last_column (e : Entropy) (data : Data)
    (hrect : ∀ ch ∈ data, ch.length = n_features data)
    (i : ℕ) (hi : i < n_features data - 1) :
    (miScan e data).getD i [] =
      data.map (fun ch =>
        e [ch.getD i []] + e [ch.getD (n_features data - 1) []] -
          e [ch.getD i [], ch.getD (n_features data - 1) []]) := by
  rw [miScan_getD e data i hi]
  apply List.map_congr_left
  intro ch hch
  have hlen : ch.length = n_features data := hrect ch hch
  have hsel : select ch.dropLast [i] = [ch.getD i []] := by
    unfold select
    simp only [List.map_cons, List.map_nil]
    have hb : i < ch.dropLast.length := by
      rw [List.length_dropLast]; omega
    rw [List.getD_eq_getElem _ _ hb, List.getD_eq_getElem _ _ (by omega),
      List.getElem_dropLast]
  have hdrop : ch.drop (ch.length - 1) = [ch.getD (n_features data - 1) []] := by
    have h0 : n_features data - 1 < ch.length := by omega
    rw [hlen, List.drop_eq_getElem_cons h0]
    have h1 : n_features data - 1 + 1 = ch.length := by omega
    rw [h1, List.drop_length, List.getD_eq_getElem _ _ h0]
  rw [hsel, hdrop]
  rfl

/-- C4: in every Multiplet Index Table row, the first `order` entries are
pairwise distinct candidate indices in {0, …, n_features-2}, and every entry past
that prefix is the sentinel `-1`. -/
theorem fit_multiplets_wf (e : Entropy) (data : Data) (minsize : ℕ)
    (maxsize : Option ℕ) (r : FitResult) (hfit : fit e data minsize maxsize = .ok r)
    (j : ℕ) (hj : j < r.multiplets.length) :
    ((r.multiplets.getD j []).take (r.order.getD j 0)).Nodup ∧
    (∀ z ∈ (r.multiplets.getD j []).take (r.order.getD j 0),
      0 ≤ z ∧ z < (n_features data : ℤ) - 1) ∧
    (r.multiplets.getD j []).drop (r.order.getD j 0) =
      List.replicate ((r.multiplets.getD j []).length - r.order.getD j 0) (-1 : ℤ) := by
  obtain ⟨hms, hmx, rfl⟩ := fit_ok.mp hfit
  have h2ms : 2 ≤ max minsize 2 := le_max_right minsize 2
  have hj' : j < (allCombs (n_features data - 1) (max minsize 2)
      (maxsize.getD (n_features data - 1))).length := by
    have hx := hj
    simp only [flatResult] at hx
    rwa [flatIdx_eq_map, List.length_map] at hx
  obtain ⟨hhoi, hmult, hord⟩ := flatResult_row e data _ _ j hj'
  rw [hmult, hord]
  have hcmem := getD_mem _ j ([] : List ℕ) hj'
  obtain ⟨hlen1, hlen2, hnd, hbound⟩ := mem_allCombs hcmem
  set c := (allCombs (n_features data - 1) (max minsize 2)
      (maxsize.getD (n_features data - 1))).getD j [] with hc
  have htake : (padRow (maxsize.getD (n_features data - 1)) c).take c.length =
      c.map Int.ofNat := by
    rw [padRow, List.take_left' (by rw [List.length_map])]
  have hnf3 : 3 ≤ n_features data := by omega
  refine ⟨?_, ?_, ?_⟩
  · rw [htake]
    exact hnd.map (fun a b hab => Int.ofNat_inj.mp hab)
  · intro z hz
    rw [htake] at hz
    obtain ⟨x, hx, rfl⟩ := List.mem_map.mp hz
    have hxlt : x < n_features data - 1 := hbound x hx
    rw [Int.ofNat_eq_coe]
    constructor <;> omega
  · rw [padRow, List.drop_left' (by rw [List.length_map])]
    congr 1
    simp only [List.length_append, List.length_map, List.length_replicate]
    omega

/-- C1: for every row of the HOI Result Table and every channel, the stored value
is exactly the minimum, over the multiplet's member feature indices (the valid
prefix of the Multiplet Index Table row), of the corresponding entries of the
Single-feature MI table: it is one of those entries and is ≤ all of them. -/
theorem fit_hoi_is_min (e : Entropy) (data : Data) (minsize : ℕ)
    (maxsize : Option ℕ) (r : FitResult) (hfit : fit e data minsize maxsize = .ok r)
    (j ch : ℕ) (hj : j < r.hoi.length) (hch : ch < n_variables data) :
    (r.hoi.getD j []).getD ch 0 ∈
      ((r.multiplets.getD j []).take (r.order.getD j 0)).map
        (fun z => ((miScan e data).getD z.toNat []).getD ch 0) ∧
    ∀ w ∈ ((r.multiplets.getD j []).take (r.order.getD j 0)).map
        (fun z => ((miScan e data).getD z.toNat []).getD ch 0),
      (r.hoi.getD j []).getD ch 0 ≤ w := by
  obtain ⟨hms, hmx, rfl⟩ := fit_ok.mp hfit
  have h2ms : 2 ≤ max minsize 2 := le_max_right minsize 2
  have hj' : j < (allCombs (n_features data - 1) (max minsize 2)
      (maxsize.getD (n_features data - 1))).length := by
    have hx := hj
    simp only [flatResult] at hx
    rwa [flatHoi_eq_map, List.length_map] at hx
  obtain ⟨hhoi, hmult, hord⟩ := flatResult_row e data _ _ j hj'
  rw [hhoi, hmult, hord]
  have hcmem := getD_mem _ j ([] : List ℕ) hj'
  obtain ⟨hlen1, hlen2, hnd, hbound⟩ := mem_allCombs hcmem
  set c := (allCombs (n_features data - 1) (max minsize 2)
      (maxsize.getD (n_features data - 1))).getD j [] with hc
  have htake : (padRow (maxsize.getD (n_features data - 1)) c).take c.length =
      c.map Int.ofNat := by
    rw [padRow, List.take_left' (by rw [List.length_map])]
  rw [htake, List.map_map]
  have hvals : c.map ((fun z => ((miScan e data).getD z.toNat []).getD ch 0) ∘ Int.ofNat)
      = (c.map (fun i => (miScan e data).getD i [])).map (fun row => row.getD ch 0) := by
    rw [List.map_map]
    apply List.map_congr_left
    intro x _
    simp [Function.comp, Int.toNat_ofNat]
  rw [hvals]
  have hrows : ∀ row ∈ c.map (fun i => (miScan e data).getD i []),
      row.length = n_variables data := by
    intro row hrow
    obtain ⟨i, hi, rfl⟩ := List.mem_map.mp hrow
    have hilt : i < (miScan e data).length := by
      rw [miScan_length]; exact hbound i hi
    exact miScan_row_length e data _ (getD_mem _ _ _ hilt)
  have hne : c.map (fun i => (miScan e data).getD i []) ≠ [] := by
    have hcne : c ≠ [] := by
      intro h
      rw [h] at hlen1
      simp only [List.length_nil] at hlen1
      omega
    simpa using hcne
  rw [hoiOf]
  exact colMin_getD_is_min hne hrows ch hch

/-! ## C8: there is no preallocation guard in `fit` -/

theorem sum_choose_64 :
    ((orders 2 64).map (fun c => Nat.choose 64 c)).sum = 2 ^ 64 - 65 := by
  have hIcc : Finset.Icc 2 64 = Finset.Ico 2 65 := by
    rw [← Nat.Ico_succ_right]
  rw [sum_orders_eq_Icc, hIcc]
  have h1 : ∑ k ∈ Finset.Ico 0 65, Nat.choose 64 k = 2 ^ 64 := by
    rw [← Finset.range_eq_Ico]
    exact Nat.sum_range_choose 64
  have h4 : (∑ k ∈ Finset.Ico 0 2, Nat.choose 64 k) +
      ∑ k ∈ Finset.Ico 2 65, Nat.choose 64 k =
      ∑ k ∈ Finset.Ico 0 65, Nat.choose 64 k :=
    Finset.sum_Ico_consecutive _ (by omega) (by omega)
  have h5 : ∑ k ∈ Finset.Ico 0 2, Nat.choose 64 k = 65 := by decide
  have hp : (2 : ℕ) ^ 64 = 18446744073709551616 := by norm_num
  omega

/-- C8 (amended): `fit` performs no preallocation-bound check at all: whatever the
configuration, it never raises `ResourceExhaustedError` — its only failure mode is
the `InvalidSizeError` from the size check, after which the output tables are
allocated unconditionally. -/
theorem fit_no_resource_guard (e : Entropy) (data : Data) (minsize : ℕ)
    (maxsize : Option ℕ) :
    fit e data minsize maxsize ≠ .error .resourceExhausted := by
  unfold fit
  rcases hchk : check_minmax (n_features data) (max minsize 2) maxsize with err | p
  · have herr : err = .invalidSize := by
      simp only [check_minmax] at hchk
      split at hchk
      · exact (Except.error.inj hchk).symm
      · cases hchk
    subst herr
    simp
  · obtain ⟨pm, pM⟩ := p
    simp

/-- C8 counterexample: a configuration whose total multiplet count exceeds 10^19
(with 64 candidate features and default sizes the count is 2^64 - 65, an index
table of more than 10^21 cells — beyond any practical preallocation bound) is
still accepted by `fit`, which returns a result instead of raising
`ResourceExhaustedError` before allocation. -/
theorem fit_no_resource_guard_cex :
    (fit (fun _ => (0 : ℚ)) [List.replicate 65 [(0 : ℚ)]] 2 none).isOk = true ∧
    ((orders 2 64).map (fun c => Nat.choose 64 c)).sum > 10 ^ 19 := by
  constructor
  · rfl
  · rw [sum_choose_64]
    decide

/-! ## C9: channel independence -/

theorem flatHoi_rowPerm (e : Entropy) (data : Data) (σ : List ℕ) (ms mx : ℕ)
    (h2ms : 2 ≤ ms) (hσmem : ∀ x ∈ σ, x < n_variables data) :
    flatHoi ((miScan e data).map (rowPerm σ)) (n_features data - 1) ms mx =
      (flatHoi (miScan e data) (n_features data - 1) ms mx).map (rowPerm σ) := by
  rw [flatHoi_eq_map, flatHoi_eq_map, List.map_map]
  apply List.map_congr_left
  intro c hcmem
  obtain ⟨hlen1, hlen2, hnd, hbound⟩ := mem_allCombs hcmem
  simp only [Function.comp_apply]
  unfold hoiOf
  have hsel : c.map (fun i => ((miScan e data).map (rowPerm σ)).getD i []) =
      (c.map (fun i => (miScan e data).getD i [])).map (rowPerm σ) := by
    rw [List.map_map]
    apply List.map_congr_left
    intro i hi
    have hilt : i < (miScan e data).length := by
      rw [miScan_length]; exact hbound i hi
    simp only [Function.comp_apply]
    exact getD_map_eq _ _ _ _ [] hilt
  rw [hsel]
  apply colMin_rowPerm σ
  · have hcne : c ≠ [] := by
      intro h
      rw [h] at hlen1
      simp only [List.length_nil] at hlen1
      omega
    simpa using hcne
  · intro row hrow
    obtain ⟨i, hi, rfl⟩ := List.mem_map.mp hrow
    have hilt : i < (miScan e data).length := by
      rw [miScan_length]; exact hbound i hi
    exact miScan_row_length e data _ (getD_mem _ _ _ hilt)
  · exact hσmem

/-- C9: permuting the channel axis of the prepared dataset permutes the entries of
every HOI Result Table row identically and leaves the Multiplet Index Table, the
Order Table and the Keep Mask unchanged: each channel's result depends only on
that channel's data. -/
theorem fit_channel_perm (e : Entropy) (data : Data) (minsize : ℕ)
    (maxsize : Option ℕ) (σ : List ℕ) (r : FitResult)
    (hσ : σ.Perm (List.range (n_variables data)))
    (hrect : ∀ ch ∈ data, ch.length = n_features data)
    (hfit : fit e data minsize maxsize = .ok r) :
    fit e (chanPerm σ data) minsize maxsize =
      .ok { hoi := r.hoi.map (rowPerm σ), multiplets := r.multiplets,
            order := r.order, keep := r.keep } := by
  obtain ⟨hms, hmx, rfl⟩ := fit_ok.mp hfit
  have h2ms : 2 ≤ max minsize 2 := le_max_right minsize 2
  have hdata : data ≠ [] := by
    intro h
    subst h
    simp only [n_features, List.headD_nil, List.length_nil, Nat.zero_sub] at hms hmx
    omega
  have hnvpos : 1 ≤ data.length := by
    cases data with
    | nil => cases hdata rfl
    | cons ch d => simp
  have hσlen : σ.length = data.length := by
    have := hσ.length_eq
    simpa [n_variables] using this
  have hσmem : ∀ x ∈ σ, x < n_variables data := by
    intro x hx
    have := hσ.mem_iff.mp hx
    simpa [n_variables] using List.mem_range.mp this
  have hnf' : n_features (chanPerm σ data) = n_features data := by
    rcases hσ0 : σ with _ | ⟨s0, σ'⟩
    · rw [hσ0] at hσlen
      simp only [List.length_nil] at hσlen
      omega
    · have hs0 : s0 < data.length := hσmem s0 (by rw [hσ0]; simp)
      simp only [chanPerm, n_features, List.map_cons, List.headD_cons]
      rw [List.getD_eq_getElem _ _ hs0]
      exact hrect _ (List.getElem_mem hs0)
  have hnv' : n_variables (chanPerm σ data) = n_variables data := by
    simp [chanPerm, n_variables, hσlen]
  have hmi1 : ∀ comb : List ℕ,
      mutual_information e (xPart (chanPerm σ data)) (yPart (chanPerm σ data)) comb =
        rowPerm σ (mutual_information e (xPart data) (yPart data) comb) := by
    intro comb
    unfold xPart yPart
    rw [mutual_information_eq_map, mutual_information_eq_map]
    unfold chanPerm rowPerm
    rw [List.map_map]
    apply List.map_congr_left
    intro s hs
    have hslt : s < data.length := hσmem s hs
    simp only [Function.comp_apply]
    exact (getD_map_eq
      (fun ch => e (select ch.dropLast comb) + e (ch.drop (ch.length - 1)) -
        e (select ch.dropLast comb ++ ch.drop (ch.length - 1)))
      data s 0 [] hslt).symm
  have hmi : miScan e (chanPerm σ data) = (miScan e data).map (rowPerm σ) := by
    unfold miScan
    have hx1 : n_features (xPart (chanPerm σ data)) = n_features data - 1 := by
      rw [n_features_xPart, hnf']
    have hx2 : n_features (xPart data) = n_features data - 1 := n_features_xPart data
    rw [hx1, hx2, List.map_map]
    apply List.map_congr_left
    intro i _
    simp only [Function.comp_apply]
    exact hmi1 [i]
  rw [fit_ok, hnf']
  refine ⟨hms, hmx, ?_⟩
  simp only [flatResult]
  rw [hnf', hmi, flatHoi_rowPerm e data σ _ _ h2ms hσmem]

/-! ## Concrete instantiations of the claims

`Rat.add`, `Rat.sub` and `Rat.mul` are `@[irreducible]` in the library; making
them semireducible here lets `decide` evaluate the model on concrete data. -/

attribute [local semireducible] Rat.add Rat.sub Rat.mul

/-- A concrete entropy backend for instantiating the theorems: the sum of all
sample values scaled by the number of selected features. -/
def entS : Entropy := fun b => (b.map (fun row => row.sum)).sum * (b.length : ℚ)

/-- A concrete prepared dataset: two channels, four feature columns (three
candidates plus the target), two samples per feature. -/
def dataV : Data := [[[1, 2], [3, 4], [5, 6], [7, 8]], [[2, 1], [4, 3], [6, 5], [8, 7]]]

/-- The value `fit entS dataV 2 none` returns, written out. -/
def resV : FitResult :=
  { hoi := [[-22, -22], [-26, -26], [-26, -26], [-26, -26]],
    multiplets := [[0, 1, -1], [0, 2, -1], [1, 2, -1], [0, 1, 2]],
    order := [2, 2, 2, 3],
    keep := [true, true, true, true] }

instance : DecidableEq (Except FitError FitResult) := fun a b =>
  match a, b with
  | .ok x, .ok y => decidable_of_iff (x = y) (by simp)
  | .error x, .error y => decidable_of_iff (x = y) (by simp)
  | .ok _, .error _ => isFalse (by simp)
  | .error _, .ok _ => isFalse (by simp)

theorem fitV : fit entS dataV 2 none = .ok resV := by decide

/-- Witness for C1 at `fit entS dataV 2 none`, row 0, channel 0. -/
theorem fit_hoi_is_min_witness :
    ((resV.hoi.getD 0 []).getD 0 0 ∈
      ((resV.multiplets.getD 0 []).take (resV.order.getD 0 0)).map
        (fun z => ((miScan entS dataV).getD z.toNat []).getD 0 0)) ∧
    ∀ w ∈ ((resV.multiplets.getD 0 []).take (resV.order.getD 0 0)).map
        (fun z => ((miScan entS dataV).getD z.toNat []).getD 0 0),
      (resV.hoi.getD 0 []).getD 0 0 ≤ w :=
  fit_hoi_is_min entS dataV 2 none resV fitV 0 0 (by decide) (by decide)

/-- Witness for C2 at `entS` and `dataV`, feature 0. -/
theorem miScan_spec_witness :
    0 < n_features dataV - 1 ∧
    (miScan entS dataV).getD 0 [] =
      dataV.map (fun ch =>
        entS (select ch.dropLast [0]) + entS (ch.drop (ch.length - 1)) -
          entS (select ch.dropLast [0] ++ ch.drop (ch.length - 1))) :=
  ⟨by decide, (miScan_spec entS dataV).2.2 0 (by decide)⟩

/-- Witness for C3 at `fit entS dataV 2 none`: 4 rows in total and C(3, 2) = 3
rows of order 2. -/
theorem fit_table_counts_witness :
    resV.hoi.length =
      ∑ k ∈ Finset.Icc (max 2 2) ((none : Option ℕ).getD (n_features dataV - 1)),
        Nat.choose (n_features dataV - 1) k ∧
    resV.order.count 2 = Nat.choose (n_features dataV - 1) 2 :=
  ⟨(fit_table_counts entS dataV 2 none resV fitV).1,
   (fit_table_counts entS dataV 2 none resV fitV).2.2.2 2 (by decide) (by decide)⟩

/-- Witness for C4 at `fit entS dataV 2 none`, row 0. -/
theorem fit_multiplets_wf_witness :
    ((resV.multiplets.getD 0 []).take (resV.order.getD 0 0)).Nodup ∧
    (∀ z ∈ (resV.multiplets.getD 0 []).take (resV.order.getD 0 0),
      0 ≤ z ∧ z < (n_features dataV : ℤ) - 1) ∧
    (resV.multiplets.getD 0 []).drop (resV.order.getD 0 0) =
      List.replicate ((resV.multiplets.getD 0 []).length - resV.order.getD 0 0)
        (-1 : ℤ) :=
  fit_multiplets_wf entS dataV 2 none resV fitV 0 (by decide)

/-- Witness for C5 at `fit entS dataV 2 none`, rows 0 and 3. -/
theorem fit_order_monotone_witness :
    resV.order.getD 0 0 ≤ resV.order.getD 3 0 :=
  fit_order_monotone entS dataV 2 none resV fitV 0 3 (by decide) (by decide)

/-- Witness for C6: with one candidate feature (`n_features = 2`) the default call
with `minsize = 2` fails with `InvalidSizeError`. -/
theorem fit_invalid_size_witness :
    fit entS [[[(0 : ℚ)], [0]]] 2 none = .error .invalidSize :=
  (fit_invalid_size entS [[[(0 : ℚ)], [0]]] 2 none).2.2 (by decide)

/-- Witness for C9: swapping the two channels of `dataV` swaps the two entries of
every HOI row and leaves the other tables unchanged. -/
theorem fit_channel_perm_witness :
    fit entS (chanPerm [1, 0] dataV) 2 none =
      .ok { hoi := resV.hoi.map (rowPerm [1, 0]), multiplets := resV.multiplets,
            order := resV.order, keep := resV.keep } :=
  fit_channel_perm entS dataV 2 none [1, 0] resV (by decide) (by decide) fitV

/-- Witness for C10 at `entS` and `dataV`, feature 0. -/
theorem fit_target_last_column_witness :
    (miScan entS dataV).getD 0 [] =
      dataV.map (fun ch =>
        entS [ch.getD 0 []] + entS [ch.getD (n_features dataV - 1) []] -
          entS [ch.getD 0 [], ch.getD (n_features dataV - 1) []]) :=
  fit_target_last_column entS dataV (by decide) 0 (by decide)

end HOI
